import Mathlib

/-!
Shallow embedding of the coinweb-code-challenge race/retry core.

The repository has three source files:
* `src/retry.rs` — `Retryer::retry`, a bounded retry loop over a factory of
  fallible asynchronous attempts;
* `src/solution.rs` — `SolutionFuture`, a hand-written race combinator over a
  vector of futures with per-future readiness flags (`is_ready_future`) and a
  `pending_count`, plus `Solution0::solve`, the orchestrator mapping the race
  outcome to an `Option`;
* `src/statement.rs` — the simulated `Download` collaborator (out of scope
  beyond the `Result` contract it provides).

Futures are embedded as deterministic mock state machines: a `MockFuture`
returns `Pending` for its first `delay` polls and `Ready result` from poll
number `delay` on.  A ghost counter `polls` records how often each future has
been polled, and the scan loop carries a ghost `underflow` flag that records
whether the `usize` decrement of `pending_count` was ever executed with the
counter at zero.  `Retryer.retry` carries a ghost invocation count so that the
invocation-count guarantees of the spec are statable.
-/

deriving instance DecidableEq for Except

/-- Mirror of `std::task::Poll`. -/
inductive Poll (α : Type) where
  | Ready : α → Poll α
  | Pending : Poll α
  deriving DecidableEq

/-- Mirror of `Result::is_ok`. -/
def resultIsOk {T E : Type} : Except E T → Bool
  | Except.ok _ => true
  | Except.error _ => false

/-- Mirror of `Result::ok` (used by `Solution0::solve` as `future.await.ok()`). -/
def resultOk {T E : Type} : Except E T → Option T
  | Except.ok v => some v
  | Except.error _ => none

/-- A deterministic mock of one racing future: it is `Pending` for its first
`delay` polls and `Ready result` afterwards.  `polls` is a ghost counter of how
many times the future has been polled so far. -/
structure MockFuture (T E : Type) where
  delay : Nat
  result : Except E T
  polls : Nat
  deriving DecidableEq

/-- Polling a `MockFuture`: mirror of one `Future::poll` call on a mock
operation — ready exactly when it has already been polled `delay` times. -/
def pollMock {T E : Type} (f : MockFuture T E) : Poll (Except E T) × MockFuture T E :=
  (if f.delay ≤ f.polls then Poll.Ready f.result else Poll.Pending,
   { f with polls := f.polls + 1 })

/-- Mirror of the `SolutionFuture` struct of `src/solution.rs`. -/
structure SolutionFuture (T E : Type) where
  futures : List (MockFuture T E)
  is_ready_future : List Bool
  pending_count : Nat
  deriving DecidableEq

/-- Mirror of `SolutionFuture::new`: asserts the vector is non-empty (the
panic is modelled as `none`), then builds the initial state with all readiness
flags `false` and `pending_count` equal to the number of futures. -/
def SolutionFuture.new {T E : Type} (futures : List (MockFuture T E)) :
    Option (SolutionFuture T E) :=
  if futures.isEmpty then
    none
  else
    some { futures := futures,
           is_ready_future := List.replicate futures.length false,
           pending_count := futures.length }

/-- Result of one scan over the zipped `(futures, is_ready_future)` lists:
`early` is the success that caused an early `return` (if any), `futures`,
`flags` and `pending` are the updated state, `last_error` mirrors the local
`last_error` variable, and `underflow` is a ghost flag set when the
`pending_count -= 1` decrement executes with the counter already at zero. -/
structure ScanOut (T E : Type) where
  early : Option (Except E T)
  futures : List (MockFuture T E)
  flags : List Bool
  pending : Nat
  last_error : Option (Except E T)
  underflow : Bool
  deriving DecidableEq

/-- Mirror of the `for (future, is_ready) in futures.iter_mut().zip(...)` loop
of `SolutionFuture::poll`: skip settled futures, poll the others; a ready
success returns immediately (remaining entries untouched); a ready failure
settles, decrements `pending` and overwrites `last_error`. -/
def scanLoop {T E : Type} :
    List (MockFuture T E) → List Bool → Nat → Option (Except E T) → Bool → ScanOut T E
  | [], bs, pc, le, uf => ⟨none, [], bs, pc, le, uf⟩
  | f :: fs, [], pc, le, uf => ⟨none, f :: fs, [], pc, le, uf⟩
  | f :: fs, b :: bs, pc, le, uf =>
    if b then
      let o := scanLoop fs bs pc le uf
      ⟨o.early, f :: o.futures, b :: o.flags, o.pending, o.last_error, o.underflow⟩
    else
      match pollMock f with
      | (Poll.Pending, f1) =>
        let o := scanLoop fs bs pc le uf
        ⟨o.early, f1 :: o.futures, false :: o.flags, o.pending, o.last_error, o.underflow⟩
      | (Poll.Ready r, f1) =>
        if resultIsOk r then
          ⟨some r, f1 :: fs, true :: bs, pc - 1, le, uf || decide (pc = 0)⟩
        else
          let o := scanLoop fs bs (pc - 1) (some r) (uf || decide (pc = 0))
          ⟨o.early, f1 :: o.futures, true :: o.flags, o.pending, o.last_error, o.underflow⟩

/-- Result of one activation of the combinator. -/
structure PollOut (T E : Type) where
  out : Poll (Except E T)
  state : SolutionFuture T E
  underflow : Bool
  deriving DecidableEq

/-- Mirror of `SolutionFuture::poll` (`src/solution.rs` lines 90–134):
run the scan with a fresh `last_error = None`; an early success is returned as
`Ready`; otherwise, if `pending_count` reached 0 and a failure was recorded in
this scan, return it as `Ready`; otherwise stay `Pending`. -/
def SolutionFuture.poll {T E : Type} (s : SolutionFuture T E) : PollOut T E :=
  let o := scanLoop s.futures s.is_ready_future s.pending_count none false
  let s1 : SolutionFuture T E := ⟨o.futures, o.flags, o.pending⟩
  match o.early with
  | some r => ⟨Poll.Ready r, s1, o.underflow⟩
  | none =>
    if o.pending = 0 then
      match o.last_error with
      | some le => ⟨Poll.Ready le, s1, o.underflow⟩
      | none => ⟨Poll.Pending, s1, o.underflow⟩
    else
      ⟨Poll.Pending, s1, o.underflow⟩

/-- The state after one activation. -/
def pollState {T E : Type} (s : SolutionFuture T E) : SolutionFuture T E :=
  (SolutionFuture.poll s).state

/-- The state after `n` activations. -/
def pollIter {T E : Type} (s : SolutionFuture T E) : Nat → SolutionFuture T E
  | 0 => s
  | n + 1 => pollState (pollIter s n)

/-- Driving the combinator like `.await` does: activate it repeatedly until it
resolves, giving up after `fuel` activations (`none` = still pending). -/
def runPolls {T E : Type} : Nat → SolutionFuture T E → Option (Except E T)
  | 0, _ => none
  | fuel + 1, s =>
    match SolutionFuture.poll s with
    | ⟨Poll.Ready r, _, _⟩ => some r
    | ⟨Poll.Pending, s1, _⟩ => runPolls fuel s1

/-- Mirror of the `Retryer(usize)` struct of `src/retry.rs`. -/
structure Retryer where
  retry_count : Nat
  deriving DecidableEq

/-- Mirror of `Retryer::new`. -/
def Retryer.new (retry_count : Nat) : Retryer := ⟨retry_count⟩

/-- The body of `Retryer::retry`: `calls` is the ghost number of factory
invocations made so far (the factory `f` is indexed by invocation number), and
the `Nat` fuel is the number of loop iterations of `for _ in 0..self.0` that
remain.  After the loop, one final unconditional invocation is made.  Returns
the final outcome together with the ghost total invocation count. -/
def retryAux {T E : Type} (f : Nat → Except E T) (calls : Nat) : Nat → Except E T × Nat
  | 0 => (f calls, calls + 1)
  | n + 1 =>
    let result := f calls
    if resultIsOk result then
      (result, calls + 1)
    else
      retryAux f (calls + 1) n

/-- Mirror of `Retryer::retry` (`src/retry.rs` lines 13–26), instrumented with
the ghost invocation count. -/
def Retryer.retry {T E : Type} (r : Retryer) (f : Nat → Except E T) : Except E T × Nat :=
  retryAux f 0 r.retry_count

/-- Mirror of `Solution0::solve` (`src/solution.rs` lines 23–46) at the level
of the already-built operation vector: return `some none` (the normal return
of value `None`) for an empty collection without touching the
combinator; otherwise build the combinator and map its outcome through
`Result::ok`.  The outer `Option` is the ghost termination/panic layer:
`none` means the model ran out of fuel or the constructor panicked. -/
def Solution0.solve {T E : Type} (fuel : Nat) (ops : List (MockFuture T E)) :
    Option (Option T) :=
  match ops with
  | [] => some none
  | _ :: _ =>
    match SolutionFuture.new ops with
    | none => none
    | some s => (runPolls fuel s).map resultOk

/-- Number of `false` entries of a flag list: the number of operations still
marked not-yet-settled. -/
def countFalse (bs : List Bool) : Nat := (bs.filter (fun b => !b)).length

/-- An operation is "ready with success right now": not settled, its mock is
ready, and its result is a success. -/
def succNowB {T E : Type} (f : MockFuture T E) (b : Bool) : Bool :=
  !b && decide (f.delay ≤ f.polls) && resultIsOk f.result

/-! ### Uniform run states

A fresh race over operations described by a list of `(delay, result)` pairs
evolves through "uniform" states: after `k` full activations each operation has
been polled `min k (delay + 1)` times and is settled exactly when
`delay < k`. -/

/-- The mock future of the operation `(delay, result)` as it looks after `k`
full activations of a fresh race. -/
def opFut {T E : Type} (k : Nat) (p : Nat × Except E T) : MockFuture T E :=
  ⟨p.1, p.2, min k (p.1 + 1)⟩

/-- All operation mocks after `k` full activations. -/
def opsAt {T E : Type} (l : List (Nat × Except E T)) (k : Nat) : List (MockFuture T E) :=
  l.map (opFut k)

/-- All readiness flags after `k` full activations. -/
def flagsAt {T E : Type} (l : List (Nat × Except E T)) (k : Nat) : List Bool :=
  l.map (fun p => decide (p.1 < k))

/-- Number of operations that settle during activation number `k`. -/
def settlersLen {T E : Type} (l : List (Nat × Except E T)) (k : Nat) : Nat :=
  (l.filter (fun p => decide (p.1 = k))).length

/-- Number of operations still pending at the start of activation `k`. -/
def pendAt {T E : Type} (l : List (Nat × Except E T)) (k : Nat) : Nat :=
  (l.filter (fun p => decide (k ≤ p.1))).length

/-- The value of `last_error` after scanning activation `k` starting from
`le`: the result of the last operation (in scan order) settling at `k`. -/
def lastErrAt {T E : Type} (l : List (Nat × Except E T)) (k : Nat)
    (le : Option (Except E T)) : Option (Except E T) :=
  l.foldl (fun acc p => if p.1 = k then some p.2 else acc) le

/-- The whole combinator state after `k` full activations of a fresh race. -/
def uState {T E : Type} (l : List (Nat × Except E T)) (k : Nat) : SolutionFuture T E :=
  ⟨opsAt l k, flagsAt l k, pendAt l k⟩

/-- The largest delay in the race: the activation in which the race drains. -/
def maxDelay {T E : Type} (l : List (Nat × Except E T)) : Nat :=
  l.foldr (fun p m => max p.1 m) 0

/-! ### State invariant -/

/-- The `RaceState` invariant: the two parallel vectors have equal length and
`pending_count` equals the number of operations still marked
not-yet-settled. -/
def RaceInv {T E : Type} (s : SolutionFuture T E) : Prop :=
  s.futures.length = s.is_ready_future.length ∧
  s.pending_count = countFalse s.is_ready_future


/-! ### Retryer lemmas -/

lemma retryAux_fail {T E : Type} (f : Nat → Except E T)
    (hf : ∀ i, resultIsOk (f i) = false) :
    ∀ n c, retryAux f c n = (f (c + n), c + n + 1) := by
  intro n
  induction n with
  | zero => intro c; simp [retryAux]
  | succ n ih =>
    intro c
    have h := hf c
    simp only [retryAux, h, Bool.false_eq_true, if_false]
    rw [ih (c + 1)]
    have harg : c + 1 + n = c + (n + 1) := by omega
    rw [harg]

lemma retryAux_succ {T E : Type} (f : Nat → Except E T) :
    ∀ m c n, m ≤ n → (∀ i, i < m → resultIsOk (f (c + i)) = false) →
      resultIsOk (f (c + m)) = true →
      retryAux f c n = (f (c + m), c + m + 1) := by
  intro m
  induction m with
  | zero =>
    intro c n _ _ hsucc
    cases n with
    | zero => simp [retryAux]
    | succ n =>
      simp only [Nat.add_zero] at hsucc
      simp [retryAux, hsucc]
  | succ m ih =>
    intro c n hmn hfail hsucc
    cases n with
    | zero => omega
    | succ n =>
      have h0 : resultIsOk (f c) = false := by
        have h := hfail 0 (Nat.succ_pos m)
        simpa using h
      simp only [retryAux, h0, Bool.false_eq_true, if_false]
      have hfail1 : ∀ i, i < m → resultIsOk (f (c + 1 + i)) = false := by
        intro i hi
        have h := hfail (i + 1) (by omega)
        have harg : c + (i + 1) = c + 1 + i := by omega
        rw [harg] at h
        exact h
      have hsucc1 : resultIsOk (f (c + 1 + m)) = true := by
        have harg : c + (m + 1) = c + 1 + m := by omega
        rw [harg] at hsucc
        exact hsucc
      rw [ih (c + 1) n (by omega) hfail1 hsucc1]
      have harg : c + 1 + m = c + (m + 1) := by omega
      rw [harg]

/-- Claim C4: for every retry count `N`, `Retryer::retry` applied to a factory
whose every attempt fails invokes the factory exactly `N + 1` times and returns
the failure produced by the final attempt. -/
theorem claim_C4 {T E : Type} (N : Nat) (f : Nat → Except E T)
    (hf : ∀ i, resultIsOk (f i) = false) :
    (Retryer.new N).retry f = (f N, N + 1) ∧
      resultIsOk ((Retryer.new N).retry f).1 = false := by
  have h := retryAux_fail f hf N 0
  simp only [Nat.zero_add] at h
  refine ⟨by simpa [Retryer.retry, Retryer.new] using h, ?_⟩
  simp [Retryer.retry, Retryer.new, h, hf]

/-- Witness for C4 at `N = 2` with the factory failing with its call index. -/
theorem claim_C4_witness :
    (Retryer.new 2).retry (fun i => (Except.error i : Except Nat Nat)) =
      (Except.error 2, 3) ∧
    resultIsOk ((Retryer.new 2).retry (fun i => (Except.error i : Except Nat Nat))).1
      = false := by
  have h := claim_C4 2 (fun i => (Except.error i : Except Nat Nat)) (fun i => rfl)
  simpa using h

/-- Claim C5: for every retry count `N` and every `k ≤ N + 1` with `k ≥ 1`,
`Retryer::retry` applied to a factory that fails on its first `k - 1` calls and
succeeds on its `k`-th call invokes the factory exactly `k` times and returns
the success of that call. -/
theorem claim_C5 {T E : Type} (N k : Nat) (f : Nat → Except E T)
    (hk1 : 1 ≤ k) (hk2 : k ≤ N + 1)
    (hfail : ∀ i, i < k - 1 → resultIsOk (f i) = false)
    (hsucc : resultIsOk (f (k - 1)) = true) :
    (Retryer.new N).retry f = (f (k - 1), k) := by
  have h := retryAux_succ f (k - 1) 0 N (by omega)
    (fun i hi => by simpa using hfail i hi)
    (by simpa using hsucc)
  simp only [Nat.zero_add] at h
  have harg : k - 1 + 1 = k := by omega
  rw [harg] at h
  simpa [Retryer.retry, Retryer.new] using h

/-- Witness for C5 at `N = 0`, `k = 1` with a factory succeeding at once. -/
theorem claim_C5_witness :
    (Retryer.new 0).retry (fun _ => (Except.ok 5 : Except Nat Nat)) =
      (Except.ok 5, 1) := by
  have h := claim_C5 0 1 (fun _ => (Except.ok 5 : Except Nat Nat))
    (le_refl 1) (by decide) (fun i hi => absurd hi (by omega)) rfl
  simpa using h

/-- Claim C8: constructing `SolutionFuture` with an empty collection panics
(modelled as `none`), and construction with any non-empty collection does not
panic. -/
theorem claim_C8 (T E : Type) :
    SolutionFuture.new ([] : List (MockFuture T E)) = none ∧
    ∀ fs : List (MockFuture T E), fs ≠ [] →
      (SolutionFuture.new fs).isSome = true := by
  refine ⟨rfl, ?_⟩
  intro fs h
  cases fs with
  | nil => exact absurd rfl h
  | cons f fs => simp [SolutionFuture.new]

/-- Witness for C8 at a concrete one-element collection. -/
theorem claim_C8_witness :
    ([(⟨0, Except.ok 0, 0⟩ : MockFuture Nat Nat)] ≠ []) ∧
    (SolutionFuture.new [(⟨0, Except.ok 0, 0⟩ : MockFuture Nat Nat)]).isSome = true :=
  ⟨by decide, (claim_C8 Nat Nat).2 _ (by decide)⟩

/-- Claim C9: for the empty source collection, `Solution0::solve` returns
`None` immediately — even with zero polling fuel, so no operation is ever
advanced — while the combinator constructor itself would panic on the empty
collection (so `solve` cannot have constructed one). -/
theorem claim_C9 (T E : Type) :
    (∀ fuel, Solution0.solve fuel ([] : List (MockFuture T E)) = some none) ∧
    SolutionFuture.new ([] : List (MockFuture T E)) = none :=
  ⟨fun _ => rfl, rfl⟩

/-! ### Scan-loop step lemmas -/

lemma scanLoop_cons_settled {T E : Type} (f : MockFuture T E) (fs : List (MockFuture T E))
    (bs : List Bool) (pc : Nat) (le : Option (Except E T)) (uf : Bool) :
    scanLoop (f :: fs) (true :: bs) pc le uf =
      ⟨(scanLoop fs bs pc le uf).early, f :: (scanLoop fs bs pc le uf).futures,
       true :: (scanLoop fs bs pc le uf).flags, (scanLoop fs bs pc le uf).pending,
       (scanLoop fs bs pc le uf).last_error, (scanLoop fs bs pc le uf).underflow⟩ := by
  simp [scanLoop]

lemma scanLoop_cons_pending {T E : Type} {f : MockFuture T E} (fs : List (MockFuture T E))
    (bs : List Bool) (pc : Nat) (le : Option (Except E T)) (uf : Bool)
    (h : ¬ f.delay ≤ f.polls) :
    scanLoop (f :: fs) (false :: bs) pc le uf =
      ⟨(scanLoop fs bs pc le uf).early,
       { f with polls := f.polls + 1 } :: (scanLoop fs bs pc le uf).futures,
       false :: (scanLoop fs bs pc le uf).flags, (scanLoop fs bs pc le uf).pending,
       (scanLoop fs bs pc le uf).last_error, (scanLoop fs bs pc le uf).underflow⟩ := by
  simp [scanLoop, pollMock, h]

lemma scanLoop_cons_ok {T E : Type} {f : MockFuture T E} (fs : List (MockFuture T E))
    (bs : List Bool) (pc : Nat) (le : Option (Except E T)) (uf : Bool)
    (h : f.delay ≤ f.polls) (hok : resultIsOk f.result = true) :
    scanLoop (f :: fs) (false :: bs) pc le uf =
      ⟨some f.result, { f with polls := f.polls + 1 } :: fs, true :: bs, pc - 1, le,
       uf || decide (pc = 0)⟩ := by
  simp [scanLoop, pollMock, h, hok]

lemma scanLoop_cons_err {T E : Type} {f : MockFuture T E} (fs : List (MockFuture T E))
    (bs : List Bool) (pc : Nat) (le : Option (Except E T)) (uf : Bool)
    (h : f.delay ≤ f.polls) (hok : resultIsOk f.result = false) :
    scanLoop (f :: fs) (false :: bs) pc le uf =
      ⟨(scanLoop fs bs (pc - 1) (some f.result) (uf || decide (pc = 0))).early,
       { f with polls := f.polls + 1 } ::
         (scanLoop fs bs (pc - 1) (some f.result) (uf || decide (pc = 0))).futures,
       true :: (scanLoop fs bs (pc - 1) (some f.result) (uf || decide (pc = 0))).flags,
       (scanLoop fs bs (pc - 1) (some f.result) (uf || decide (pc = 0))).pending,
       (scanLoop fs bs (pc - 1) (some f.result) (uf || decide (pc = 0))).last_error,
       (scanLoop fs bs (pc - 1) (some f.result) (uf || decide (pc = 0))).underflow⟩ := by
  simp [scanLoop, pollMock, h, hok]

@[simp] lemma countFalse_nil : countFalse [] = 0 := rfl

@[simp] lemma countFalse_cons_true (bs : List Bool) :
    countFalse (true :: bs) = countFalse bs := by
  simp [countFalse]

@[simp] lemma countFalse_cons_false (bs : List Bool) :
    countFalse (false :: bs) = countFalse bs + 1 := by
  simp [countFalse]

lemma succNowB_false_iff {T E : Type} (f : MockFuture T E) :
    succNowB f false = true ↔ (f.delay ≤ f.polls ∧ resultIsOk f.result = true) := by
  simp [succNowB]

/-- Scanning a list whose first ready-with-success operation sits after a
run of leading operations none of which is ready with success: the scan
returns the success of that operation as the early result, settles it, decrements the
pending counter, and leaves every later entry untouched. -/
lemma scan_first_success {T E : Type} :
    ∀ (fs1 : List (MockFuture T E)) (bs1 : List Bool) (f : MockFuture T E)
      (fs2 : List (MockFuture T E)) (bs2 : List Bool) (pc : Nat)
      (le : Option (Except E T)) (uf : Bool),
      fs1.length = bs1.length →
      (∀ q ∈ fs1.zip bs1, succNowB q.1 q.2 = false) →
      succNowB f false = true →
      ∃ pre preb pc1 le1 uf1,
        scanLoop (fs1 ++ f :: fs2) (bs1 ++ false :: bs2) pc le uf =
          ⟨some f.result, pre ++ { f with polls := f.polls + 1 } :: fs2,
           preb ++ true :: bs2, pc1, le1, uf1⟩ ∧
        pre.length = fs1.length ∧ preb.length = bs1.length ∧
        (countFalse (bs1 ++ false :: bs2) ≤ pc → pc1 < pc) := by
  intro fs1
  induction fs1 with
  | nil =>
    intro bs1 f fs2 bs2 pc le uf hlen _ hsucc
    have hbs1 : bs1 = [] := by
      cases bs1 with
      | nil => rfl
      | cons b bs => simp at hlen
    subst hbs1
    rw [succNowB_false_iff] at hsucc
    refine ⟨[], [], pc - 1, le, uf || decide (pc = 0), ?_, rfl, rfl, ?_⟩
    · simpa using scanLoop_cons_ok fs2 bs2 pc le uf hsucc.1 hsucc.2
    · intro hpc
      simp only [List.nil_append, countFalse_cons_false] at hpc
      omega
  | cons f1 fs1 ih =>
    intro bs1 f fs2 bs2 pc le uf hlen hno hsucc
    cases bs1 with
    | nil => simp at hlen
    | cons b1 bs1 =>
      have hlen1 : fs1.length = bs1.length := by simpa using hlen
      have hno1 : ∀ q ∈ fs1.zip bs1, succNowB q.1 q.2 = false := by
        intro q hq
        exact hno q (by simp [hq])
      have hno0 : succNowB f1 b1 = false := hno ⟨f1, b1⟩ (by simp)
      cases b1 with
      | true =>
        obtain ⟨pre, preb, pc1, le1, uf1, heq, hl1, hl2, hdec⟩ :=
          ih bs1 f fs2 bs2 pc le uf hlen1 hno1 hsucc
        refine ⟨f1 :: pre, true :: preb, pc1, le1, uf1, ?_, by simpa using hl1,
          by simpa using hl2, ?_⟩
        · rw [List.cons_append, List.cons_append, scanLoop_cons_settled, heq]
          rfl
        · intro hpc
          apply hdec
          simpa [List.cons_append] using hpc
      | false =>
        by_cases hready : f1.delay ≤ f1.polls
        · have herr : resultIsOk f1.result = false := by
            rcases Bool.eq_false_or_eq_true (resultIsOk f1.result) with h | h
            · exfalso
              have hcontra : succNowB f1 false = true := by simp [succNowB, hready, h]
              rw [hno0] at hcontra
              exact Bool.false_ne_true hcontra
            · exact h
          obtain ⟨pre, preb, pc1, le1, uf1, heq, hl1, hl2, hdec⟩ :=
            ih bs1 f fs2 bs2 (pc - 1) (some f1.result) (uf || decide (pc = 0))
              hlen1 hno1 hsucc
          refine ⟨{ f1 with polls := f1.polls + 1 } :: pre, true :: preb, pc1, le1, uf1,
            ?_, by simpa using hl1, by simpa using hl2, ?_⟩
          · rw [List.cons_append, List.cons_append,
              scanLoop_cons_err _ _ _ _ _ hready herr, heq]
            rfl
          · intro hpc
            simp only [List.cons_append, countFalse_cons_false] at hpc
            have h1 : countFalse (bs1 ++ false :: bs2) ≤ pc - 1 := by omega
            have := hdec h1
            omega
        · obtain ⟨pre, preb, pc1, le1, uf1, heq, hl1, hl2, hdec⟩ :=
            ih bs1 f fs2 bs2 pc le uf hlen1 hno1 hsucc
          refine ⟨{ f1 with polls := f1.polls + 1 } :: pre, false :: preb, pc1, le1, uf1,
            ?_, by simpa using hl1, by simpa using hl2, ?_⟩
          · rw [List.cons_append, List.cons_append,
              scanLoop_cons_pending _ _ _ _ _ hready, heq]
            rfl
          · intro hpc
            simp only [List.cons_append, countFalse_cons_false] at hpc
            exact hdec (by omega)

/-- Claim C1: when, during the scan of one activation, a not-yet-settled operation
is the earliest one ready with success, the combinator marks it settled,
decrements `pending_count`, and immediately returns that success as the final
`Outcome` without polling any later operation in that pass (their entries,
ghost poll counters included, are untouched); hence the earliest
ready-with-success operation in the original ordering wins. -/
theorem claim_C1 {T E : Type} (fs1 : List (MockFuture T E)) (bs1 : List Bool)
    (f : MockFuture T E) (fs2 : List (MockFuture T E)) (bs2 : List Bool) (pc : Nat)
    (hlen : fs1.length = bs1.length)
    (hno : ∀ q ∈ fs1.zip bs1, succNowB q.1 q.2 = false)
    (hsucc : succNowB f false = true)
    (hpc : pc = countFalse (bs1 ++ false :: bs2)) :
    (SolutionFuture.poll ⟨fs1 ++ f :: fs2, bs1 ++ false :: bs2, pc⟩).out =
      Poll.Ready f.result ∧
    resultIsOk f.result = true ∧
    ∃ pre preb,
      (pollState (⟨fs1 ++ f :: fs2, bs1 ++ false :: bs2, pc⟩ : SolutionFuture T E)).futures =
        pre ++ { f with polls := f.polls + 1 } :: fs2 ∧
      pre.length = fs1.length ∧
      (pollState (⟨fs1 ++ f :: fs2, bs1 ++ false :: bs2, pc⟩ : SolutionFuture T E)).is_ready_future =
        preb ++ true :: bs2 ∧
      preb.length = bs1.length ∧
      (pollState (⟨fs1 ++ f :: fs2, bs1 ++ false :: bs2, pc⟩ : SolutionFuture T E)).pending_count < pc := by
  obtain ⟨pre, preb, pc1, le1, uf1, heq, hl1, hl2, hdec⟩ :=
    scan_first_success fs1 bs1 f fs2 bs2 pc none false hlen hno hsucc
  have hok : resultIsOk f.result = true := ((succNowB_false_iff f).1 hsucc).2
  refine ⟨?_, hok, pre, preb, ?_, hl1, ?_, hl2, ?_⟩
  · simp [SolutionFuture.poll, heq]
  · simp [pollState, SolutionFuture.poll, heq]
  · simp [pollState, SolutionFuture.poll, heq]
  · simp only [pollState, SolutionFuture.poll, heq]
    exact hdec (le_of_eq hpc.symm)

/-- Witness for C1: a three-future race with a pending earlier future, the
success in the middle, and an untouched later future. -/
theorem claim_C1_witness :
    (SolutionFuture.poll (⟨[⟨2, Except.error 7, 0⟩, ⟨0, Except.ok 5, 0⟩, ⟨9, Except.ok 6, 0⟩],
        [false, false, false], 3⟩ : SolutionFuture Nat Nat)).out =
      Poll.Ready (Except.ok 5) ∧
    resultIsOk (Except.ok 5 : Except Nat Nat) = true ∧
    ∃ pre preb,
      (pollState (⟨[⟨2, Except.error 7, 0⟩, ⟨0, Except.ok 5, 0⟩, ⟨9, Except.ok 6, 0⟩],
          [false, false, false], 3⟩ : SolutionFuture Nat Nat)).futures =
        pre ++ (⟨0, Except.ok 5, 1⟩ : MockFuture Nat Nat) :: [⟨9, Except.ok 6, 0⟩] ∧
      pre.length = 1 ∧
      (pollState (⟨[⟨2, Except.error 7, 0⟩, ⟨0, Except.ok 5, 0⟩, ⟨9, Except.ok 6, 0⟩],
          [false, false, false], 3⟩ : SolutionFuture Nat Nat)).is_ready_future =
        preb ++ true :: [false] ∧
      preb.length = 1 ∧
      (pollState (⟨[⟨2, Except.error 7, 0⟩, ⟨0, Except.ok 5, 0⟩, ⟨9, Except.ok 6, 0⟩],
          [false, false, false], 3⟩ : SolutionFuture Nat Nat)).pending_count < 3 := by
  have h := claim_C1 [⟨2, Except.error 7, 0⟩] [false] ⟨0, Except.ok 5, 0⟩
    [⟨9, Except.ok 6, 0⟩] [false] 3 (by decide) (by decide) (by decide) (by decide)
  simpa using h

@[simp] lemma opsAt_nil {T E : Type} (k : Nat) :
    opsAt ([] : List (Nat × Except E T)) k = [] := rfl

@[simp] lemma opsAt_cons {T E : Type} (p : Nat × Except E T) (l : List (Nat × Except E T))
    (k : Nat) : opsAt (p :: l) k = opFut k p :: opsAt l k := rfl

@[simp] lemma flagsAt_nil {T E : Type} (k : Nat) :
    flagsAt ([] : List (Nat × Except E T)) k = [] := rfl

@[simp] lemma flagsAt_cons {T E : Type} (p : Nat × Except E T) (l : List (Nat × Except E T))
    (k : Nat) : flagsAt (p :: l) k = decide (p.1 < k) :: flagsAt l k := rfl

@[simp] lemma lastErrAt_nil {T E : Type} (k : Nat) (le : Option (Except E T)) :
    lastErrAt ([] : List (Nat × Except E T)) k le = le := rfl

@[simp] lemma lastErrAt_cons {T E : Type} (p : Nat × Except E T)
    (l : List (Nat × Except E T)) (k : Nat) (le : Option (Except E T)) :
    lastErrAt (p :: l) k le = lastErrAt l k (if p.1 = k then some p.2 else le) := rfl

lemma settlersLen_cons {T E : Type} (p : Nat × Except E T) (l : List (Nat × Except E T))
    (k : Nat) : settlersLen (p :: l) k =
      if p.1 = k then settlersLen l k + 1 else settlersLen l k := by
  by_cases h : p.1 = k <;> simp [settlersLen, List.filter_cons, h]

lemma pendAt_cons {T E : Type} (p : Nat × Except E T) (l : List (Nat × Except E T))
    (k : Nat) : pendAt (p :: l) k =
      if k ≤ p.1 then pendAt l k + 1 else pendAt l k := by
  by_cases h : k ≤ p.1 <;> simp [pendAt, List.filter_cons, h]

lemma settlersLen_cons2 {T E : Type} (d : Nat) (r : Except E T)
    (l : List (Nat × Except E T)) (k : Nat) :
    settlersLen ((d, r) :: l) k =
      if d = k then settlersLen l k + 1 else settlersLen l k := by
  by_cases h : d = k <;> simp [settlersLen, List.filter_cons, h]

lemma lastErrAt_cons2 {T E : Type} (d : Nat) (r : Except E T)
    (l : List (Nat × Except E T)) (k : Nat) (le : Option (Except E T)) :
    lastErrAt ((d, r) :: l) k le =
      lastErrAt l k (if d = k then some r else le) := rfl

/-- One full activation scan over a uniform state in which no operation is
ready with success: every still-pending operation is polled once, the ones
whose delay expires settle as failures (decrementing the counter and
overwriting `last_error` in scan order), and no early return happens. -/
lemma scan_uniform {T E : Type} :
    ∀ (l : List (Nat × Except E T)) (k pc : Nat) (le : Option (Except E T)) (uf : Bool),
      (∀ p ∈ l, p.1 = k → resultIsOk p.2 = false) →
      settlersLen l k ≤ pc →
      scanLoop (opsAt l k) (flagsAt l k) pc le uf =
        ⟨none, opsAt l (k + 1), flagsAt l (k + 1), pc - settlersLen l k,
         lastErrAt l k le, uf⟩ := by
  intro l
  induction l with
  | nil =>
    intro k pc le uf _ _
    simp [scanLoop, settlersLen]
  | cons p l ih =>
    intro k pc le uf hfail hpc
    obtain ⟨d, r⟩ := p
    have hfail1 : ∀ p ∈ l, p.1 = k → resultIsOk p.2 = false := by
      intro q hq
      exact hfail q (by simp [hq])
    rcases Nat.lt_trichotomy d k with hlt | heq | hgt
    · -- already settled before activation k: skipped, untouched
      have hflag : decide (d < k) = true := by simpa using hlt
      have hflag1 : decide (d < k + 1) = true := by simp; omega
      have hsl : settlersLen ((d, r) :: l) k = settlersLen l k := by
        rw [settlersLen_cons2, if_neg (by omega)]
      rw [hsl] at hpc
      have hfut : opFut (k + 1) ((d, r) : Nat × Except E T) =
          (opFut k ((d, r) : Nat × Except E T) : MockFuture T E) := by
        simp only [opFut]
        congr 1
        omega
      simp only [opsAt_cons, flagsAt_cons, hflag, scanLoop_cons_settled,
        ih k pc le uf hfail1 hpc, lastErrAt_cons2, hsl, hfut, hflag1,
        if_neg (show ¬ d = k by omega)]
    · -- settles at activation k with a failure
      subst heq
      have hflag : decide (d < d) = false := by simp
      have hpolls : min d (d + 1) = d := by omega
      have hready : (opFut d ((d, r) : Nat × Except E T) : MockFuture T E).delay ≤
          (opFut d ((d, r) : Nat × Except E T) : MockFuture T E).polls := by
        simp [opFut, hpolls]
      have herr : resultIsOk (opFut d ((d, r) : Nat × Except E T) :
          MockFuture T E).result = false := by
        simpa [opFut] using hfail (d, r) (by simp) rfl
      have hsl : settlersLen ((d, r) :: l) d = settlersLen l d + 1 := by
        rw [settlersLen_cons2, if_pos rfl]
      rw [hsl] at hpc
      have hpc0 : decide (pc = 0) = false := by simp; omega
      have hrec := ih d (pc - 1) (some r) uf hfail1 (by omega)
      have hpend : pc - 1 - settlersLen l d = pc - (settlersLen l d + 1) := by omega
      have hflag1 : decide (d < d + 1) = true := by simp
      simp only [opsAt_cons, flagsAt_cons, hflag,
        scanLoop_cons_err _ _ _ _ _ hready herr, hpc0, Bool.or_false]
      have hres : (opFut d ((d, r) : Nat × Except E T) : MockFuture T E).result = r := rfl
      rw [hres, hrec, hsl]
      simp only [opFut, hpolls, Nat.min_self, lastErrAt_cons2, if_pos rfl, hpend, hflag1,
        eq_self_iff_true, if_true]
    · -- still pending after activation k: polled, stays unsettled
      have hflag : decide (d < k) = false := by simp; omega
      have hpolls : min k (d + 1) = k := by omega
      have hpolls1 : min (k + 1) (d + 1) = k + 1 := by omega
      have hnready : ¬ (opFut k ((d, r) : Nat × Except E T) : MockFuture T E).delay ≤
          (opFut k ((d, r) : Nat × Except E T) : MockFuture T E).polls := by
        simp only [opFut]
        simp only [hpolls]
        simp
        omega
      have hsl : settlersLen ((d, r) :: l) k = settlersLen l k := by
        rw [settlersLen_cons2, if_neg (by omega)]
      rw [hsl] at hpc
      have hflag1 : decide (d < k + 1) = false := by simp; omega
      simp only [opsAt_cons, flagsAt_cons, hflag,
        scanLoop_cons_pending _ _ _ _ _ hnready,
        ih k pc le uf hfail1 hpc, lastErrAt_cons2, hsl]
      simp only [opFut, hpolls, hpolls1, hflag1, if_neg (show ¬ d = k by omega)]

lemma pendAt_succ_add {T E : Type} (l : List (Nat × Except E T)) (k : Nat) :
    pendAt l (k + 1) + settlersLen l k = pendAt l k := by
  induction l with
  | nil => simp [pendAt, settlersLen]
  | cons p l ih =>
    obtain ⟨d, r⟩ := p
    rw [pendAt_cons, pendAt_cons, settlersLen_cons2]
    split_ifs <;> omega

lemma settlersLen_le_pendAt {T E : Type} (l : List (Nat × Except E T)) (k : Nat) :
    settlersLen l k ≤ pendAt l k := by
  have := pendAt_succ_add l k
  omega

lemma pendAt_sub {T E : Type} (l : List (Nat × Except E T)) (k : Nat) :
    pendAt l k - settlersLen l k = pendAt l (k + 1) := by
  have := pendAt_succ_add l k
  omega

@[simp] lemma maxDelay_nil {T E : Type} : maxDelay ([] : List (Nat × Except E T)) = 0 := rfl

@[simp] lemma maxDelay_cons {T E : Type} (p : Nat × Except E T)
    (l : List (Nat × Except E T)) : maxDelay (p :: l) = max p.1 (maxDelay l) := rfl

lemma le_maxDelay {T E : Type} (l : List (Nat × Except E T)) :
    ∀ p ∈ l, p.1 ≤ maxDelay l := by
  induction l with
  | nil => simp
  | cons q l ih =>
    intro p hp
    rcases List.mem_cons.1 hp with h | h
    · subst h; simp
    · have := ih p h
      simp
      omega

lemma maxDelay_mem {T E : Type} (l : List (Nat × Except E T)) (h : l ≠ []) :
    ∃ p ∈ l, p.1 = maxDelay l := by
  induction l with
  | nil => exact absurd rfl h
  | cons q l ih =>
    by_cases hl : l = []
    · subst hl
      exact ⟨q, by simp⟩
    · obtain ⟨p, hp, hpd⟩ := ih hl
      rcases Nat.le_total (maxDelay l) q.1 with hle | hle
      · exact ⟨q, by simp, by simp; omega⟩
      · exact ⟨p, by simp [hp], by simp; omega⟩

lemma pendAt_eq_zero {T E : Type} (l : List (Nat × Except E T)) (k : Nat)
    (h : ∀ p ∈ l, p.1 < k) : pendAt l k = 0 := by
  induction l with
  | nil => rfl
  | cons p l ih =>
    rw [pendAt_cons, if_neg (by have := h p (by simp); omega)]
    exact ih (fun q hq => h q (by simp [hq]))

lemma pendAt_pos {T E : Type} (l : List (Nat × Except E T)) (k : Nat)
    (p : Nat × Except E T) (hp : p ∈ l) (hk : k ≤ p.1) : 0 < pendAt l k := by
  induction l with
  | nil => simp at hp
  | cons q l ih =>
    rw [pendAt_cons]
    rcases List.mem_cons.1 hp with h | h
    · subst h
      rw [if_pos hk]
      omega
    · by_cases hq : k ≤ q.1
      · rw [if_pos hq]; omega
      · rw [if_neg hq]; exact ih h

lemma lastErrAt_isSome {T E : Type} (l : List (Nat × Except E T)) (k : Nat) :
    ∀ le : Option (Except E T), le.isSome = true ∨ (∃ p ∈ l, p.1 = k) →
      (lastErrAt l k le).isSome = true := by
  induction l with
  | nil =>
    intro le h
    rcases h with h | ⟨p, hp, _⟩
    · simpa using h
    · simp at hp
  | cons q l ih =>
    intro le h
    rw [lastErrAt_cons]
    by_cases hq : q.1 = k
    · exact ih _ (Or.inl (by simp [hq]))
    · rw [if_neg hq]
      apply ih
      rcases h with h | ⟨p, hp, hpk⟩
      · exact Or.inl h
      · rcases List.mem_cons.1 hp with h1 | h1
        · exact absurd (h1 ▸ hpk) hq
        · exact Or.inr ⟨p, h1, hpk⟩

lemma lastErrAt_mem {T E : Type} (l : List (Nat × Except E T)) (k : Nat) :
    ∀ (le : Option (Except E T)) (r : Except E T), lastErrAt l k le = some r →
      (∃ p ∈ l, p.1 = k ∧ p.2 = r) ∨ le = some r := by
  induction l with
  | nil =>
    intro le r h
    exact Or.inr h
  | cons q l ih =>
    intro le r h
    rw [lastErrAt_cons] at h
    rcases ih _ r h with ⟨p, hp, hpk, hpr⟩ | heq
    · exact Or.inl ⟨p, by simp [hp], hpk, hpr⟩
    · by_cases hq : q.1 = k
      · rw [if_pos hq] at heq
        exact Or.inl ⟨q, by simp, hq, by injection heq⟩
      · rw [if_neg hq] at heq
        exact Or.inr heq

/-- An activation of a uniform state with no success settling and operations
left pending afterwards: the combinator stays `Pending` and the state advances
to the next uniform state. -/
lemma poll_uniform_pending {T E : Type} (l : List (Nat × Except E T)) (k : Nat)
    (hfail : ∀ p ∈ l, p.1 = k → resultIsOk p.2 = false)
    (hpos : 0 < pendAt l (k + 1)) :
    SolutionFuture.poll (uState l k) = ⟨Poll.Pending, uState l (k + 1), false⟩ := by
  have hscan := scan_uniform l k (pendAt l k) none false hfail (settlersLen_le_pendAt l k)
  simp only [SolutionFuture.poll, uState, hscan, pendAt_sub]
  rw [if_neg (by omega)]

/-- The draining activation of a uniform state with no success settling: when
the last pending operations all settle (as failures) in activation `k`, the
combinator returns the recorded `last_error` of that scan. -/
lemma poll_uniform_final {T E : Type} (l : List (Nat × Except E T)) (k : Nat)
    (hfail : ∀ p ∈ l, p.1 = k → resultIsOk p.2 = false)
    (hzero : pendAt l (k + 1) = 0) (r : Except E T)
    (hr : lastErrAt l k none = some r) :
    SolutionFuture.poll (uState l k) = ⟨Poll.Ready r, uState l (k + 1), false⟩ := by
  have hscan := scan_uniform l k (pendAt l k) none false hfail (settlersLen_le_pendAt l k)
  simp only [SolutionFuture.poll, uState, hscan, pendAt_sub, hr]
  rw [if_pos hzero]

lemma runPolls_shift {T E : Type} (l : List (Nat × Except E T)) (k fuel : Nat)
    (hfail : ∀ p ∈ l, p.1 = k → resultIsOk p.2 = false)
    (hpos : 0 < pendAt l (k + 1)) :
    runPolls (fuel + 1) (uState l k) = runPolls fuel (uState l (k + 1)) := by
  rw [runPolls, poll_uniform_pending l k hfail hpos]

lemma runPolls_shiftN {T E : Type} (l : List (Nat × Except E T)) :
    ∀ (n k fuel : Nat),
      (∀ j, j < n → (∀ p ∈ l, p.1 = k + j → resultIsOk p.2 = false) ∧
        0 < pendAt l (k + j + 1)) →
      runPolls (n + fuel) (uState l k) = runPolls fuel (uState l (k + n)) := by
  intro n
  induction n with
  | zero =>
    intro k fuel _
    simp
  | succ n ih =>
    intro k fuel h
    have h0 := h 0 (by omega)
    simp only [Nat.add_zero] at h0
    have hstep : n + 1 + fuel = (n + fuel) + 1 := by omega
    rw [hstep, runPolls_shift l k (n + fuel) h0.1 h0.2]
    have hrest : ∀ j, j < n → (∀ p ∈ l, p.1 = k + 1 + j → resultIsOk p.2 = false) ∧
        0 < pendAt l (k + 1 + j + 1) := by
      intro j hj
      have := h (j + 1) (by omega)
      constructor
      · intro p hp hpk
        exact (this.1) p hp (by omega)
      · have h2 := this.2
        have harg : k + (j + 1) + 1 = k + 1 + j + 1 := by omega
        rw [harg] at h2
        exact h2
    rw [ih (k + 1) fuel hrest]
    have harg : k + 1 + n = k + (n + 1) := by omega
    rw [harg]

/-- The fold `lastErrAt` picks exactly the result of the last element (in scan order)
settling at activation `k` — i.e. the first such element of the reversed
list — falling back to the accumulator when none settles. -/
lemma lastErrAt_eq_find {T E : Type} (l : List (Nat × Except E T)) (k : Nat) :
    ∀ le, lastErrAt l k le =
      Option.or ((l.reverse.find? (fun p => decide (p.1 = k))).map Prod.snd) le := by
  induction l with
  | nil =>
    intro le
    simp [Option.or]
  | cons q l ih =>
    intro le
    rw [lastErrAt_cons, ih, List.reverse_cons, List.find?_append]
    cases hfind : List.find? (fun p => decide (p.1 = k)) l.reverse with
    | some a => simp [Option.or]
    | none =>
      by_cases hq : q.1 = k
      · simp [Option.or, List.find?, hq]
      · simp [Option.or, List.find?, hq]

lemma flagsAt_zero {T E : Type} (l : List (Nat × Except E T)) :
    flagsAt l 0 = List.replicate l.length false := by
  induction l with
  | nil => rfl
  | cons p l ih => simp [List.replicate, ih]

lemma pendAt_zero {T E : Type} (l : List (Nat × Except E T)) :
    pendAt l 0 = l.length := by
  induction l with
  | nil => rfl
  | cons p l ih =>
    rw [pendAt_cons, if_pos (Nat.zero_le _), ih]
    rfl

/-- A fresh combinator over the operations of `l` is exactly the uniform state
at activation number 0. -/
lemma new_opsAt {T E : Type} (l : List (Nat × Except E T)) (h : l ≠ []) :
    SolutionFuture.new (opsAt l 0) = some (uState l 0) := by
  cases l with
  | nil => exact absurd rfl h
  | cons p l =>
    have h2 : List.replicate (opsAt (p :: l) 0).length false = flagsAt (p :: l) 0 := by
      rw [flagsAt_zero]
      simp [opsAt]
    have h3 : (opsAt (p :: l) 0).length = pendAt (p :: l) 0 := by
      rw [pendAt_zero]
      simp [opsAt]
    show (if (opsAt (p :: l) 0).isEmpty = true then none
      else some (⟨opsAt (p :: l) 0, List.replicate (opsAt (p :: l) 0).length false,
        (opsAt (p :: l) 0).length⟩ : SolutionFuture T E)) = some (uState (p :: l) 0)
    rw [h2, h3]
    rfl

/-- Claim C2: a race in which every operation ultimately fails resolves — in
the activation that brings `pending_count` to 0 — with the failure settling
last in scan order (an error of one of the N operations, never a success and
never a sentinel), and the orchestrator maps this aggregate failure to
`None`. -/
theorem claim_C2 {T E : Type} (l : List (Nat × Except E T)) (hne : l ≠ [])
    (hallfail : ∀ p ∈ l, resultIsOk p.2 = false) :
    ∃ e : E,
      runPolls (maxDelay l + 1) (uState l 0) = some (Except.error e) ∧
      (∃ p ∈ l, p.2 = Except.error e) ∧
      (l.reverse.find? (fun p => decide (p.1 = maxDelay l))).map Prod.snd =
        some (Except.error e) ∧
      SolutionFuture.new (opsAt l 0) = some (uState l 0) ∧
      Solution0.solve (maxDelay l + 1) (opsAt l 0) = some none := by
  obtain ⟨pm, hpm, hpmd⟩ := maxDelay_mem l hne
  have hfailk : ∀ k, ∀ p ∈ l, p.1 = k → resultIsOk p.2 = false :=
    fun k p hp _ => hallfail p hp
  have hsome : (lastErrAt l (maxDelay l) none).isSome = true :=
    lastErrAt_isSome l (maxDelay l) none (Or.inr ⟨pm, hpm, hpmd⟩)
  obtain ⟨r, hr⟩ := Option.isSome_iff_exists.1 hsome
  obtain ⟨p0, hp0, hp0k, hp0r⟩ | habs := lastErrAt_mem l (maxDelay l) none r hr
  swap
  · exact absurd habs (by simp)
  have hrerr : resultIsOk r = false := hp0r ▸ hallfail p0 hp0
  obtain ⟨e, he⟩ : ∃ e, r = Except.error e := by
    cases r with
    | ok v => simp [resultIsOk] at hrerr
    | error e => exact ⟨e, rfl⟩
  subst he
  have hshift := runPolls_shiftN l (maxDelay l) 0 1
    (fun j hj => ⟨fun p hp _ => hallfail p hp,
      pendAt_pos l (0 + j + 1) pm hpm (by omega)⟩)
  simp only [Nat.zero_add] at hshift
  have hzero : pendAt l (maxDelay l + 1) = 0 :=
    pendAt_eq_zero l (maxDelay l + 1)
      (fun p hp => by have := le_maxDelay l p hp; omega)
  have hfinal := poll_uniform_final l (maxDelay l) (hfailk (maxDelay l)) hzero
    (Except.error e) hr
  have hrun : runPolls (maxDelay l + 1) (uState l 0) = some (Except.error e) := by
    rw [Nat.add_comm (maxDelay l) 1] at hshift ⊢
    rw [hshift, runPolls, hfinal]
  have hfind : (l.reverse.find? (fun p => decide (p.1 = maxDelay l))).map Prod.snd =
      some (Except.error e) := by
    have := lastErrAt_eq_find l (maxDelay l) none
    rw [hr] at this
    cases hf : (l.reverse.find? (fun p => decide (p.1 = maxDelay l))).map Prod.snd with
    | none =>
      rw [hf] at this
      simp [Option.or] at this
    | some x =>
      rw [hf] at this
      simp [Option.or] at this
      exact congrArg some this.symm
  refine ⟨e, hrun, ⟨p0, hp0, hp0r⟩, hfind, new_opsAt l hne, ?_⟩
  cases l with
  | nil => exact absurd rfl hne
  | cons q l' =>
    have hmatch : Solution0.solve (maxDelay (q :: l') + 1) (opsAt (q :: l') 0) =
        (match SolutionFuture.new (opsAt (q :: l') 0) with
          | none => none
          | some s => (runPolls (maxDelay (q :: l') + 1) s).map resultOk) := rfl
    rw [hmatch, new_opsAt (q :: l') hne]
    show (runPolls (maxDelay (q :: l') + 1) (uState (q :: l') 0)).map resultOk = some none
    rw [hrun]
    rfl

/-- Witness for C2: two always-failing operations, the slower one settling
last; its error (10) is returned and `solve` maps the failure to `None`. -/
theorem claim_C2_witness :
    ∃ e : Nat,
      runPolls (maxDelay [((1 : Nat), (Except.error 10 : Except Nat Nat)),
          (0, Except.error 20)] + 1)
        (uState [((1 : Nat), (Except.error 10 : Except Nat Nat)), (0, Except.error 20)] 0) =
        some (Except.error e) ∧
      (∃ p ∈ [((1 : Nat), (Except.error 10 : Except Nat Nat)), (0, Except.error 20)],
        p.2 = Except.error e) ∧
      (([((1 : Nat), (Except.error 10 : Except Nat Nat)),
          (0, Except.error 20)]).reverse.find?
        (fun p => decide (p.1 = maxDelay [((1 : Nat), (Except.error 10 : Except Nat Nat)),
          (0, Except.error 20)]))).map Prod.snd = some (Except.error e) ∧
      SolutionFuture.new (opsAt [((1 : Nat), (Except.error 10 : Except Nat Nat)),
        (0, Except.error 20)] 0) =
        some (uState [((1 : Nat), (Except.error 10 : Except Nat Nat)), (0, Except.error 20)] 0) ∧
      Solution0.solve (maxDelay [((1 : Nat), (Except.error 10 : Except Nat Nat)),
          (0, Except.error 20)] + 1)
        (opsAt [((1 : Nat), (Except.error 10 : Except Nat Nat)), (0, Except.error 20)] 0) =
        some none :=
  claim_C2 [((1 : Nat), (Except.error 10 : Except Nat Nat)), (0, Except.error 20)]
    (by decide) (by decide)

lemma runPolls_one {T E : Type} (s : SolutionFuture T E) (r : Except E T)
    (hr : (SolutionFuture.poll s).out = Poll.Ready r) : runPolls 1 s = some r := by
  cases hp : SolutionFuture.poll s with
  | mk o st u =>
    rw [hp] at hr
    have ho : o = Poll.Ready r := hr
    subst ho
    show (match SolutionFuture.poll s with
      | ⟨Poll.Ready r, _, _⟩ => some r
      | ⟨Poll.Pending, s1, _⟩ => runPolls 0 s1) = some r
    rw [hp]

/-- Claim C3: a failure settling mid-race is recorded and the scan continues,
so a failing co-racer never preempts an eventual success: (a) if source B
(first in scan order) fails at activation `db` while source A succeeds strictly
later (`db < da`), the final outcome is the success of A; (b) if a failure and a
success settle in the same activation with the failure earlier in scan order,
the success still wins. -/
theorem claim_C3 {T E : Type} (da db k : Nat) (va v : T) (eb e : E) (h : db < da) :
    runPolls (da + 1)
      (uState [(db, Except.error eb), (da, Except.ok va)] 0) = some (Except.ok va) ∧
    runPolls (k + 1)
      (uState [(k, Except.error e), (k, Except.ok v)] 0) = some (Except.ok v) := by
  constructor
  · -- part (a): B fails at db, A succeeds at da > db
    have hshift := runPolls_shiftN [(db, Except.error eb), (da, Except.ok va)] da 0 1
      (fun j hj => by
        constructor
        · intro p hp hpk
          rcases List.mem_cons.1 hp with h1 | h1
          · subst h1; rfl
          · rcases List.mem_cons.1 h1 with h2 | h2
            · subst h2; simp at hpk; omega
            · simp at h2
        · exact pendAt_pos _ (0 + j + 1) (da, Except.ok va) (by simp) (by simp; omega))
    simp only [Nat.zero_add] at hshift
    rw [Nat.add_comm da 1] at hshift ⊢
    rw [hshift]
    -- final activation: B is already settled, A is ready with success
    have hflagB : decide (db < da) = true := by simpa using h
    have hflagA : decide (da < da) = false := by simp
    have hsucc : succNowB (opFut da ((da, Except.ok va) : Nat × Except E T) :
        MockFuture T E) false = true := by
      simp [succNowB, opFut, resultIsOk]
    have hno : ∀ q ∈ ([(opFut da ((db, Except.error eb) : Nat × Except E T) :
        MockFuture T E)].zip [true]), succNowB q.1 q.2 = false := by
      intro q hq
      simp at hq
      subst hq
      simp [succNowB]
    obtain ⟨pre, preb, pc1, le1, uf1, heq, _, _, _⟩ :=
      scan_first_success [opFut da ((db, Except.error eb) : Nat × Except E T)] [true]
        (opFut da ((da, Except.ok va) : Nat × Except E T)) [] []
        (pendAt [(db, Except.error eb), (da, Except.ok va)] da) none false rfl hno hsucc
    have hout : (SolutionFuture.poll
        (uState [(db, Except.error eb), (da, Except.ok va)] da)).out =
        Poll.Ready (Except.ok va) := by
      simp only [SolutionFuture.poll, uState, opsAt_cons, flagsAt_cons, hflagA, hflagB]
      rw [show (opFut da ((db, Except.error eb) : Nat × Except E T) :
          MockFuture T E) :: opFut da ((da, Except.ok va) : Nat × Except E T) ::
            opsAt [] da = [opFut da ((db, Except.error eb) : Nat × Except E T)] ++
          opFut da ((da, Except.ok va) : Nat × Except E T) :: [] from rfl]
      rw [show (true :: false :: flagsAt ([] : List (Nat × Except E T)) da :
          List Bool) = [true] ++ false :: [] from rfl]
      rw [heq]
      rfl
    exact runPolls_one _ _ hout
  · -- part (b): failure then success in the same activation
    have hshift := runPolls_shiftN [(k, Except.error e), (k, Except.ok v)] k 0 1
      (fun j hj => by
        constructor
        · intro p hp hpk
          rcases List.mem_cons.1 hp with h1 | h1
          · subst h1; rfl
          · rcases List.mem_cons.1 h1 with h2 | h2
            · subst h2; simp at hpk; omega
            · simp at h2
        · exact pendAt_pos _ (0 + j + 1) (k, Except.ok v) (by simp) (by simp; omega))
    simp only [Nat.zero_add] at hshift
    rw [Nat.add_comm k 1] at hshift ⊢
    rw [hshift]
    have hok : succNowB (opFut k ((k, Except.ok v) : Nat × Except E T) :
        MockFuture T E) false = true := by
      simp [succNowB, opFut, resultIsOk]
    have hno : ∀ q ∈ ([(opFut k ((k, Except.error e) : Nat × Except E T) :
        MockFuture T E)].zip [false]), succNowB q.1 q.2 = false := by
      intro q hq
      simp at hq
      subst hq
      simp [succNowB, opFut, resultIsOk]
    obtain ⟨pre, preb, pc1, le1, uf1, heq, _, _, _⟩ :=
      scan_first_success [opFut k ((k, Except.error e) : Nat × Except E T)] [false]
        (opFut k ((k, Except.ok v) : Nat × Except E T)) [] []
        (pendAt [(k, Except.error e), (k, Except.ok v)] k) none false rfl hno hok
    have hflag : decide (k < k) = false := by simp
    have hout : (SolutionFuture.poll
        (uState [(k, Except.error e), (k, Except.ok v)] k)).out =
        Poll.Ready (Except.ok v) := by
      simp only [SolutionFuture.poll, uState, opsAt_cons, flagsAt_cons, hflag]
      rw [show (opFut k ((k, Except.error e) : Nat × Except E T) :
          MockFuture T E) :: opFut k ((k, Except.ok v) : Nat × Except E T) ::
            opsAt [] k = [opFut k ((k, Except.error e) : Nat × Except E T)] ++
          opFut k ((k, Except.ok v) : Nat × Except E T) :: [] from rfl]
      rw [show (false :: false :: flagsAt ([] : List (Nat × Except E T)) k :
          List Bool) = [false] ++ false :: [] from rfl]
      rw [heq]
      rfl
    exact runPolls_one _ _ hout

/-- Witness for C3 at `da = 1`, `db = 0`, `k = 1` with concrete values. -/
theorem claim_C3_witness :
    runPolls (1 + 1)
      (uState [((0 : Nat), (Except.error 2 : Except Nat Nat)), (1, Except.ok 1)] 0) =
      some (Except.ok 1) ∧
    runPolls (1 + 1)
      (uState [((1 : Nat), (Except.error 3 : Except Nat Nat)), (1, Except.ok 4)] 0) =
      some (Except.ok 4) :=
  claim_C3 1 0 1 1 4 2 3 (by decide)

lemma scanLoop_lengths {T E : Type} :
    ∀ (fs : List (MockFuture T E)) (bs : List Bool) (pc : Nat)
      (le : Option (Except E T)) (uf : Bool),
      (scanLoop fs bs pc le uf).futures.length = fs.length ∧
      (scanLoop fs bs pc le uf).flags.length = bs.length := by
  intro fs
  induction fs with
  | nil =>
    intro bs pc le uf
    simp [scanLoop]
  | cons f fs ih =>
    intro bs pc le uf
    cases bs with
    | nil => simp [scanLoop]
    | cons b bs =>
      cases b with
      | true =>
        rw [scanLoop_cons_settled]
        have := ih bs pc le uf
        simp [this.1, this.2]
      | false =>
        by_cases hready : f.delay ≤ f.polls
        · cases hok : resultIsOk f.result with
          | true =>
            rw [scanLoop_cons_ok fs bs pc le uf hready hok]
            simp
          | false =>
            rw [scanLoop_cons_err fs bs pc le uf hready hok]
            have := ih bs (pc - 1) (some f.result) (uf || decide (pc = 0))
            simp [this.1, this.2]
        · rw [scanLoop_cons_pending fs bs pc le uf hready]
          have := ih bs pc le uf
          simp [this.1, this.2]

lemma scanLoop_inv {T E : Type} :
    ∀ (fs : List (MockFuture T E)) (bs : List Bool) (pc : Nat)
      (le : Option (Except E T)) (uf : Bool),
      countFalse bs ≤ pc →
      ∃ m, m ≤ countFalse bs ∧
        (scanLoop fs bs pc le uf).pending = pc - m ∧
        countFalse (scanLoop fs bs pc le uf).flags = countFalse bs - m ∧
        (scanLoop fs bs pc le uf).underflow = uf := by
  intro fs
  induction fs with
  | nil =>
    intro bs pc le uf _
    exact ⟨0, by omega, by simp [scanLoop], by simp [scanLoop], by simp [scanLoop]⟩
  | cons f fs ih =>
    intro bs pc le uf hpc
    cases bs with
    | nil => exact ⟨0, by omega, by simp [scanLoop], by simp [scanLoop], by simp [scanLoop]⟩
    | cons b bs =>
      cases b with
      | true =>
        rw [countFalse_cons_true] at hpc
        obtain ⟨m, hm, h1, h2, h3⟩ := ih bs pc le uf hpc
        rw [scanLoop_cons_settled]
        exact ⟨m, by simpa using hm, by simpa using h1, by simpa using h2,
          by simpa using h3⟩
      | false =>
        rw [countFalse_cons_false] at hpc
        by_cases hready : f.delay ≤ f.polls
        · cases hok : resultIsOk f.result with
          | true =>
            rw [scanLoop_cons_ok fs bs pc le uf hready hok]
            refine ⟨1, by simp, by simp, by simp, by simp; omega⟩
          | false =>
            rw [scanLoop_cons_err fs bs pc le uf hready hok]
            have hz : decide (pc = 0) = false := by simp; omega
            rw [hz, Bool.or_false]
            obtain ⟨m, hm, h1, h2, h3⟩ := ih bs (pc - 1) (some f.result) uf (by omega)
            refine ⟨m + 1, by simp; omega, by simp only [h1]; omega, ?_, by simpa using h3⟩
            simp only [countFalse_cons_true, h2, countFalse_cons_false]
            omega
        · rw [scanLoop_cons_pending fs bs pc le uf hready]
          obtain ⟨m, hm, h1, h2, h3⟩ := ih bs pc le uf (by omega)
          refine ⟨m, by simp; omega, by simpa using h1, ?_, by simpa using h3⟩
          simp only [countFalse_cons_false, h2, countFalse_cons_false]
          omega

lemma scanLoop_settled_untouched {T E : Type} :
    ∀ (fs : List (MockFuture T E)) (bs : List Bool) (pc : Nat)
      (le : Option (Except E T)) (uf : Bool) (i : Nat),
      bs[i]? = some true →
      (scanLoop fs bs pc le uf).futures[i]? = fs[i]? ∧
      (scanLoop fs bs pc le uf).flags[i]? = some true := by
  intro fs
  induction fs with
  | nil =>
    intro bs pc le uf i hi
    simp [scanLoop, hi]
  | cons f fs ih =>
    intro bs pc le uf i hi
    cases bs with
    | nil => simp at hi
    | cons b bs =>
      cases i with
      | zero =>
        simp only [List.getElem?_cons_zero, Option.some.injEq] at hi
        subst hi
        rw [scanLoop_cons_settled]
        simp
      | succ j =>
        simp only [List.getElem?_cons_succ] at hi
        cases b with
        | true =>
          rw [scanLoop_cons_settled]
          have := ih bs pc le uf j hi
          simp [this.1, this.2]
        | false =>
          by_cases hready : f.delay ≤ f.polls
          · cases hok : resultIsOk f.result with
            | true =>
              rw [scanLoop_cons_ok fs bs pc le uf hready hok]
              simp [hi]
            | false =>
              rw [scanLoop_cons_err fs bs pc le uf hready hok]
              have := ih bs (pc - 1) (some f.result) (uf || decide (pc = 0)) j hi
              simp [this.1, this.2]
          · rw [scanLoop_cons_pending fs bs pc le uf hready]
            have := ih bs pc le uf j hi
            simp [this.1, this.2]

lemma pollState_eq {T E : Type} (s : SolutionFuture T E) :
    pollState s =
      ⟨(scanLoop s.futures s.is_ready_future s.pending_count none false).futures,
       (scanLoop s.futures s.is_ready_future s.pending_count none false).flags,
       (scanLoop s.futures s.is_ready_future s.pending_count none false).pending⟩ := by
  simp only [pollState, SolutionFuture.poll]
  split
  · rfl
  · split
    · split
      · rfl
      · rfl
    · rfl

lemma poll_underflow_eq {T E : Type} (s : SolutionFuture T E) :
    (SolutionFuture.poll s).underflow =
      (scanLoop s.futures s.is_ready_future s.pending_count none false).underflow := by
  simp only [SolutionFuture.poll]
  split
  · rfl
  · split
    · split
      · rfl
      · rfl
    · rfl

/-- One activation preserves the invariant, never increases `pending_count`,
never executes an underflowing decrement, and never touches (or unsettles) an
operation already marked settled. -/
lemma poll_step_inv {T E : Type} (s : SolutionFuture T E) (h : RaceInv s) :
    RaceInv (pollState s) ∧
    (pollState s).pending_count ≤ s.pending_count ∧
    (SolutionFuture.poll s).underflow = false ∧
    ∀ i : Nat, s.is_ready_future[i]? = some true →
      (pollState s).futures[i]? = s.futures[i]? ∧
      (pollState s).is_ready_future[i]? = some true := by
  obtain ⟨hlen, hcnt⟩ := h
  obtain ⟨m, hm, h1, h2, h3⟩ :=
    scanLoop_inv s.futures s.is_ready_future s.pending_count none false (le_of_eq hcnt.symm)
  have hlens := scanLoop_lengths s.futures s.is_ready_future s.pending_count none false
  refine ⟨⟨?_, ?_⟩, ?_, ?_, ?_⟩
  · rw [pollState_eq]
    simp [hlens.1, hlens.2, hlen]
  · rw [pollState_eq]
    simp only [h1, h2]
    omega
  · rw [pollState_eq]
    simp only [h1]
    omega
  · rw [poll_underflow_eq, h3]
  · intro i hi
    have := scanLoop_settled_untouched s.futures s.is_ready_future s.pending_count
      none false i hi
    rw [pollState_eq]
    exact this

lemma countFalse_replicate (n : Nat) : countFalse (List.replicate n false) = n := by
  induction n with
  | zero => rfl
  | succ n ih => simp [List.replicate, ih]

lemma new_inv {T E : Type} (fs : List (MockFuture T E)) (s0 : SolutionFuture T E)
    (h : SolutionFuture.new fs = some s0) :
    s0 = ⟨fs, List.replicate fs.length false, fs.length⟩ ∧ RaceInv s0 := by
  cases fs with
  | nil => simp [SolutionFuture.new] at h
  | cons f fs =>
    have h2 : s0 = ⟨f :: fs, List.replicate (f :: fs).length false, (f :: fs).length⟩ := by
      have := h.symm
      simpa [SolutionFuture.new] using this
    refine ⟨h2, ?_⟩
    rw [h2]
    exact ⟨by simp, by rw [countFalse_replicate]⟩

lemma pollIter_inv {T E : Type} (s : SolutionFuture T E) (h : RaceInv s) :
    ∀ n, RaceInv (pollIter s n) := by
  intro n
  induction n with
  | zero => exact h
  | succ n ih => exact (poll_step_inv (pollIter s n) ih).1

/-- Claim C6: after construction (`pending_count = N`) and after every
activation, `pending_count` equals the number of not-yet-settled flags, it
never increases, and an operation marked settled is never polled again (its
ghost state is unchanged by all later activations) nor unmarked. -/
theorem claim_C6 {T E : Type} (fs : List (MockFuture T E)) (s0 : SolutionFuture T E)
    (h : SolutionFuture.new fs = some s0) :
    s0.pending_count = fs.length ∧
    ∀ n, RaceInv (pollIter s0 n) ∧
      (pollIter s0 (n + 1)).pending_count ≤ (pollIter s0 n).pending_count ∧
      ∀ i : Nat, (pollIter s0 n).is_ready_future[i]? = some true →
        (pollIter s0 (n + 1)).futures[i]? = (pollIter s0 n).futures[i]? ∧
        (pollIter s0 (n + 1)).is_ready_future[i]? = some true := by
  obtain ⟨hs0, hinv⟩ := new_inv fs s0 h
  refine ⟨by rw [hs0], ?_⟩
  intro n
  have hn := pollIter_inv s0 hinv n
  have hstep := poll_step_inv (pollIter s0 n) hn
  exact ⟨hn, hstep.2.1, hstep.2.2.2⟩

/-- Witness for C6 at a concrete two-future race after one activation. -/
theorem claim_C6_witness :
    (⟨[⟨0, Except.ok 1, 0⟩, ⟨5, Except.ok 2, 0⟩], [false, false], 2⟩ :
        SolutionFuture Nat Nat).pending_count = 2 ∧
    ∀ n, RaceInv (pollIter (⟨[⟨0, Except.ok 1, 0⟩, ⟨5, Except.ok 2, 0⟩],
        [false, false], 2⟩ : SolutionFuture Nat Nat) n) ∧
      (pollIter (⟨[⟨0, Except.ok 1, 0⟩, ⟨5, Except.ok 2, 0⟩], [false, false], 2⟩ :
          SolutionFuture Nat Nat) (n + 1)).pending_count ≤
        (pollIter (⟨[⟨0, Except.ok 1, 0⟩, ⟨5, Except.ok 2, 0⟩], [false, false], 2⟩ :
          SolutionFuture Nat Nat) n).pending_count ∧
      ∀ i : Nat, (pollIter (⟨[⟨0, Except.ok 1, 0⟩, ⟨5, Except.ok 2, 0⟩], [false, false], 2⟩ :
          SolutionFuture Nat Nat) n).is_ready_future[i]? = some true →
        (pollIter (⟨[⟨0, Except.ok 1, 0⟩, ⟨5, Except.ok 2, 0⟩], [false, false], 2⟩ :
            SolutionFuture Nat Nat) (n + 1)).futures[i]? =
          (pollIter (⟨[⟨0, Except.ok 1, 0⟩, ⟨5, Except.ok 2, 0⟩], [false, false], 2⟩ :
            SolutionFuture Nat Nat) n).futures[i]? ∧
        (pollIter (⟨[⟨0, Except.ok 1, 0⟩, ⟨5, Except.ok 2, 0⟩], [false, false], 2⟩ :
            SolutionFuture Nat Nat) (n + 1)).is_ready_future[i]? = some true :=
  claim_C6 [⟨0, Except.ok 1, 0⟩, ⟨5, Except.ok 2, 0⟩]
    ⟨[⟨0, Except.ok 1, 0⟩, ⟨5, Except.ok 2, 0⟩], [false, false], 2⟩ rfl

/-- Claim C10: starting from any freshly constructed race, the `usize`
decrement of `pending_count` never executes with the counter at zero in any
activation: the ghost underflow flag stays `false` forever. -/
theorem claim_C10 {T E : Type} (fs : List (MockFuture T E)) (s0 : SolutionFuture T E)
    (h : SolutionFuture.new fs = some s0) :
    ∀ n, (SolutionFuture.poll (pollIter s0 n)).underflow = false := by
  obtain ⟨_, hinv⟩ := new_inv fs s0 h
  intro n
  exact (poll_step_inv (pollIter s0 n) (pollIter_inv s0 hinv n)).2.2.1

/-- Witness for C10 on a concrete race at its second activation. -/
theorem claim_C10_witness :
    (SolutionFuture.poll (pollIter (⟨[⟨0, Except.error 1, 0⟩, ⟨3, Except.ok 2, 0⟩],
      [false, false], 2⟩ : SolutionFuture Nat Nat) 1)).underflow = false :=
  claim_C10 [⟨0, Except.error 1, 0⟩, ⟨3, Except.ok 2, 0⟩]
    ⟨[⟨0, Except.error 1, 0⟩, ⟨3, Except.ok 2, 0⟩], [false, false], 2⟩ rfl 1

/-- Counterexample to C7 as stated: in the activation in which the first
operation finishes with success, the second operation is not yet settled and
yet is not polled at all (its ghost poll counter stays 0, not 1) — the scan
returns early and abandons it. -/
theorem claim_C7_counterexample :
    (⟨[⟨0, Except.ok 1, 0⟩, ⟨7, Except.ok 2, 0⟩], [false, false], 2⟩ :
        SolutionFuture Nat Nat).is_ready_future[1]? = some false ∧
    ((pollState (⟨[⟨0, Except.ok 1, 0⟩, ⟨7, Except.ok 2, 0⟩], [false, false], 2⟩ :
        SolutionFuture Nat Nat)).futures[1]?.map MockFuture.polls) = some 0 ∧
    ¬ ((pollState (⟨[⟨0, Except.ok 1, 0⟩, ⟨7, Except.ok 2, 0⟩], [false, false], 2⟩ :
        SolutionFuture Nat Nat)).futures[1]?.map MockFuture.polls = some 1) := by
  decide

lemma scanLoop_poll_once {T E : Type} :
    ∀ (fs : List (MockFuture T E)) (bs : List Bool) (pc : Nat)
      (le : Option (Except E T)) (uf : Bool) (i : Nat),
      bs[i]? = some false →
      (∀ j : Nat, j < i → ∀ f b, fs[j]? = some f → bs[j]? = some b →
        succNowB f b = false) →
      ((scanLoop fs bs pc le uf).futures[i]?.map MockFuture.polls) =
        (fs[i]?.map (fun f => f.polls + 1)) := by
  intro fs
  induction fs with
  | nil =>
    intro bs pc le uf i hi hno
    simp [scanLoop]
  | cons f fs ih =>
    intro bs pc le uf i hi hno
    cases bs with
    | nil => simp at hi
    | cons b bs =>
      cases i with
      | zero =>
        simp only [List.getElem?_cons_zero, Option.some.injEq] at hi
        subst hi
        by_cases hready : f.delay ≤ f.polls
        · cases hok : resultIsOk f.result with
          | true =>
            rw [scanLoop_cons_ok fs bs pc le uf hready hok]
            simp
          | false =>
            rw [scanLoop_cons_err fs bs pc le uf hready hok]
            simp
        · rw [scanLoop_cons_pending fs bs pc le uf hready]
          simp
      | succ j =>
        simp only [List.getElem?_cons_succ] at hi
        have hno1 : ∀ j1 : Nat, j1 < j → ∀ f1 b1, fs[j1]? = some f1 →
            bs[j1]? = some b1 → succNowB f1 b1 = false := by
          intro j1 hj1 f1 b1 hf1 hb1
          exact hno (j1 + 1) (by omega) f1 b1 (by simpa using hf1) (by simpa using hb1)
        cases b with
        | true =>
          rw [scanLoop_cons_settled]
          simpa using ih bs pc le uf j hi hno1
        | false =>
          have h0 : succNowB f false = false :=
            hno 0 (by omega) f false (by simp) (by simp)
          by_cases hready : f.delay ≤ f.polls
          · cases hok : resultIsOk f.result with
            | true =>
              exfalso
              have : succNowB f false = true := by simp [succNowB, hready, hok]
              rw [h0] at this
              exact Bool.false_ne_true this
            | false =>
              rw [scanLoop_cons_err fs bs pc le uf hready hok]
              simpa using ih bs (pc - 1) (some f.result) (uf || decide (pc = 0)) j hi hno1
          · rw [scanLoop_cons_pending fs bs pc le uf hready]
            simpa using ih bs pc le uf j hi hno1

/-- Claim C7, amended: on every activation, every not-yet-settled operation
that is not preceded in the original order by an operation ready with success
is polled exactly once (its ghost poll counter increases by exactly one) — in
particular, on every activation whose scan finds no success, every
not-yet-settled operation is polled exactly once and is never skipped.
Operations placed after the first ready-with-success operation are abandoned
unpolled in that final activation. -/
theorem claim_C7 {T E : Type} (s : SolutionFuture T E) (i : Nat)
    (hi : s.is_ready_future[i]? = some false)
    (hno : ∀ j : Nat, j < i → ∀ f b, s.futures[j]? = some f →
      s.is_ready_future[j]? = some b → succNowB f b = false) :
    ((pollState s).futures[i]?.map MockFuture.polls) =
      (s.futures[i]?.map (fun f => f.polls + 1)) := by
  rw [pollState_eq]
  exact scanLoop_poll_once s.futures s.is_ready_future s.pending_count none false i hi hno

/-- Witness for the amended C7: the second operation, pending and preceded
only by a ready-with-failure operation, is polled exactly once. -/
theorem claim_C7_witness :
    ((pollState (⟨[⟨2, Except.error 7, 0⟩, ⟨4, Except.ok 5, 0⟩], [false, false], 2⟩ :
        SolutionFuture Nat Nat)).futures[1]?.map MockFuture.polls) =
      (((⟨[⟨2, Except.error 7, 0⟩, ⟨4, Except.ok 5, 0⟩], [false, false], 2⟩ :
        SolutionFuture Nat Nat)).futures[1]?.map (fun f => f.polls + 1)) :=
  claim_C7 ⟨[⟨2, Except.error 7, 0⟩, ⟨4, Except.ok 5, 0⟩], [false, false], 2⟩ 1 rfl
    (fun j hj f b hf hb => by
      have hj0 : j = 0 := by omega
      subst hj0
      simp only [List.getElem?_cons_zero, Option.some.injEq] at hf hb
      subst hf
      subst hb
      rfl)
